import Mathlib

/-!
Verification of the frequency-statistics engine of the
`foxglove-topic-frequency` panel extension (`src/ExamplePanel.tsx`).

Modelling conventions:
* JS `number` values (timestamps, rates, thresholds) are modelled as exact
  rationals (`ℚ`); `Math.sqrt` is the real square root on the rational
  operands, handled exactly (see `withinThreshold`).
* JS arrays are `List ℚ`.  The two `sort` calls of the panel
  (`(a, b) => a - b` and `(a, b) => b - a`) are modelled by a stable sort by
  `≤` resp. `≥`; on lists of numbers any correct sort yields the same value.
* A JS `Set<number>` is a duplicate-free list in insertion order.
* The per-topic state touched by `context.onRender` and `getCachedStats`
  (one entry of `topicTimestamps` plus the matching entry of
  `statsCache.current`) is the structure `ChannelState`; the stored stats of
  one topic omit the `topic` name field, which only labels the entry.
-/

namespace TopicFrequency

open List

/-- JS ascending numeric sort `[...xs].sort((a, b) => a - b)`. -/
def sortAsc (l : List ℚ) : List ℚ := List.insertionSort (· ≤ ·) l

/-- JS descending numeric sort `.sort((a, b) => b - a)` (line 298). -/
def sortDesc (l : List ℚ) : List ℚ := List.insertionSort (· ≥ ·) l

/-- JS `xs.reduce((acc, freq) => acc + freq, 0)` (lines 62 and 128). -/
def listSum (l : List ℚ) : ℚ := l.foldl (· + ·) 0

/-- JS `xs.reduce((acc, freq) => acc + (freq - mean) ** 2, 0)` (lines 64-65
and 137-139). -/
def sqDevSum (mean : ℚ) (l : List ℚ) : ℚ :=
  l.foldl (fun acc freq => acc + (freq - mean) ^ 2) 0

/-- JS `Math.min(...l)` for the nonempty lists it is applied to (line 148);
the `[]` case is never reached by the panel. -/
def listMin : List ℚ → ℚ
  | [] => 0
  | x :: xs => xs.foldl min x

/-- JS `Math.max(...l)` for the nonempty lists it is applied to (line 149);
the `[]` case models the absent-set fallback `0` of line 161. -/
def listMax : List ℚ → ℚ
  | [] => 0
  | x :: xs => xs.foldl max x

/-- The mean of lines 62-63: `sum / frequencies.length`. -/
def meanOf (l : List ℚ) : ℚ := listSum l / l.length

/-- The population variance of lines 64-65 (divide by `N`); the source then
takes `stdDev = Math.sqrt(variance)` (line 66). -/
def varOf (l : List ℚ) : ℚ := sqDevSum (meanOf l) l / l.length

/-- The outlier test `Math.abs(freq - mean) <= threshold * stdDev` of
line 68, with `stdDev = Math.sqrt(variance)`, decided exactly over `ℚ`:
for `0 ≤ threshold` both sides are nonnegative, so the test is equivalent
to its square; for `threshold < 0` the right-hand side is nonpositive, so
the test holds exactly when the deviation is zero and the variance is zero.
`withinThreshold_iff` below proves this equivalence against the real-valued
formulation. -/
def withinThreshold (mean variance threshold freq : ℚ) : Bool :=
  if 0 ≤ threshold then decide ((freq - mean) ^ 2 ≤ threshold ^ 2 * variance)
  else decide (freq = mean ∧ variance = 0)

/-- Function `removeOutliers` of `ExamplePanel.tsx` lines 57-69 (the spec
operation `filterOutliers`). -/
def removeOutliers (frequencies : List ℚ) (threshold : ℚ) : List ℚ :=
  if frequencies.length < 3 then frequencies
  else frequencies.filter (withinThreshold (meanOf frequencies) (varOf frequencies) threshold)

/-- The statistics record returned by `calculateFrequencyStats`
(interface `FrequencyStats` minus the `topic` label).  The source stores
`stdDeviation = Math.sqrt(variance)`; the field `stdDeviationSq` holds that
variance, so the source's `stdDeviation` is `Real.sqrt stdDeviationSq`. -/
structure FrequencyStats where
  messageCount : ℕ
  frequencies : List ℚ
  averageFrequency : ℚ
  medianFrequency : ℚ
  stdDeviationSq : ℚ
  minFrequency : ℚ
  maxFrequency : ℚ
  filteredFrequencies : List ℚ
  outlierCount : ℕ
  deriving Repr, DecidableEq

/-- The all-zero early-return record of lines 73-85, 97-109 and 114-126. -/
def zeroStats (messageCount : ℕ) (frequencies : List ℚ) (outlierCount : ℕ) :
    FrequencyStats :=
  { messageCount := messageCount
    frequencies := frequencies
    averageFrequency := 0
    medianFrequency := 0
    stdDeviationSq := 0
    minFrequency := 0
    maxFrequency := 0
    filteredFrequencies := []
    outlierCount := outlierCount }

/-- The interval loop of lines 88-95: walk consecutive pairs of the sorted
timestamps and push `1.0 / interval` whenever `interval > 0`. -/
def computeIntervals : List ℚ → List ℚ
  | a :: b :: rest =>
      (if b - a > 0 then [1 / (b - a)] else []) ++ computeIntervals (b :: rest)
  | _ => []

/-- Lines 87-95 of `calculateFrequencyStats` (the spec operation
`computeRates`): sort ascending, then the interval loop. -/
def computeRates (timestamps : List ℚ) : List ℚ :=
  computeIntervals (sortAsc timestamps)

/-- The median of lines 130-135: middle element of the ascending-sorted
list, averaging the two middle elements for even length. -/
def medianOf (l : List ℚ) : ℚ :=
  let sorted := sortAsc l
  let medianIndex := sorted.length / 2
  if sorted.length % 2 = 0 then
    (sorted.getD (medianIndex - 1) 0 + sorted.getD medianIndex 0) / 2
  else sorted.getD medianIndex 0

/-- Lines 128-152 of `calculateFrequencyStats` (the spec operation
`summarize`): summary statistics over a nonempty filtered rate list. -/
def summarize (messageCount : ℕ) (intervals filteredFrequencies : List ℚ)
    (outlierCount : ℕ) : FrequencyStats :=
  { messageCount := messageCount
    frequencies := intervals
    averageFrequency := meanOf filteredFrequencies
    medianFrequency := medianOf filteredFrequencies
    stdDeviationSq := varOf filteredFrequencies
    minFrequency := listMin filteredFrequencies
    maxFrequency := listMax filteredFrequencies
    filteredFrequencies := filteredFrequencies
    outlierCount := outlierCount }

/-- Function `calculateFrequencyStats` of `ExamplePanel.tsx` lines 71-155. -/
def calculateFrequencyStats (timestamps : List ℚ) (outlierThreshold : ℚ) :
    FrequencyStats :=
  if timestamps.length < 2 then zeroStats timestamps.length [] 0
  else
    let intervals := computeRates timestamps
    if intervals.length = 0 then zeroStats timestamps.length [] 0
    else
      let filteredFrequencies := removeOutliers intervals outlierThreshold
      let outlierCount := intervals.length - filteredFrequencies.length
      if filteredFrequencies.length = 0 then
        zeroStats timestamps.length intervals outlierCount
      else
        summarize timestamps.length intervals filteredFrequencies outlierCount

/-- One entry of `statsCache.current` (lines 30-36). -/
structure CacheEntry where
  stats : FrequencyStats
  lastUpdate : ℚ
  timestampCount : ℕ
  deriving Repr, DecidableEq

/-- The per-topic state: the topic's timestamp `Set` (a duplicate-free list
in insertion order; `[]` models a topic with no set yet) together with its
entry of `statsCache.current`, if any. -/
structure ChannelState where
  timestamps : List ℚ
  cache : Option CacheEntry
  deriving Repr, DecidableEq

/-- The `lastUpdate` half of the cache fingerprint (line 161):
`timestamps ? Math.max(...Array.from(timestamps)) : 0`.  A topic without a
set maps to `0`; the sets the panel builds are never empty. -/
def fingerprintLastUpdate (ts : List ℚ) : ℚ :=
  if ts.isEmpty then 0 else listMax ts

/-- Function `getCachedStats` of lines 157-182 (the spec operation
`memoizedSummary`),
returning the stats together with the updated cache state.  The source feeds
`calculateFrequencyStats` the set's elements run through a default
(lexicographic) `sort`; since `calculateFrequencyStats` re-sorts numerically
and otherwise uses only the length, any arrangement of the elements gives
the same result (`calculateFrequencyStats_perm` below), so the model passes
the insertion-order list directly. -/
def getCachedStats (outlierThreshold : ℚ) (s : ChannelState) :
    FrequencyStats × ChannelState :=
  let timestampCount := s.timestamps.length
  let lastUpdate := fingerprintLastUpdate s.timestamps
  match s.cache with
  | some cached =>
      if cached.lastUpdate = lastUpdate ∧ cached.timestampCount = timestampCount then
        (cached.stats, s)
      else
        let stats := calculateFrequencyStats s.timestamps outlierThreshold
        (stats, ⟨s.timestamps, some ⟨stats, lastUpdate, timestampCount⟩⟩)
  | none =>
      let stats := calculateFrequencyStats s.timestamps outlierThreshold
      (stats, ⟨s.timestamps, some ⟨stats, lastUpdate, timestampCount⟩⟩)

/-- Constant `MAX_TIMESTAMPS_PER_TOPIC` (line 38). -/
def MAX_TIMESTAMPS_PER_TOPIC : ℕ := 1000

/-- The per-message body of the `context.onRender` handler, lines 283-303
(the spec operation `retain`): add the timestamp to the topic's set; if the
value was new and the set now exceeds `cap`, sort descending, keep the `cap`
most recent and drop the topic's cache entry.  The `Bool` is the message's
contribution to `hasChanges`. -/
def retain (cap : ℕ) (s : ChannelState) (t : ℚ) : ChannelState × Bool :=
  if t ∈ s.timestamps then (s, false)
  else
    let inserted := s.timestamps ++ [t]
    if inserted.length > cap then
      (⟨(sortDesc inserted).take cap, none⟩, true)
    else
      (⟨inserted, s.cache⟩, true)

/-- Reference definition of `computeRates`, following the spec's words for
refinement comparison: sort ascending, then for each consecutive pair emit
`1/delta` exactly when `delta = t[i] - t[i-1]` is positive. -/
def computeRatesSpec (timestamps : List ℚ) : List ℚ :=
  let sorted := sortAsc timestamps
  (sorted.zip sorted.tail).filterMap fun p =>
    if p.2 - p.1 > 0 then some (1 / (p.2 - p.1)) else none

/-! ### Theorems -/



theorem sortAsc_perm (l : List ℚ) : sortAsc l ~ l := List.perm_insertionSort _ _

theorem sortAsc_sorted (l : List ℚ) : (sortAsc l).Sorted (· ≤ ·) :=
  List.sorted_insertionSort _ _

theorem sortAsc_eq_of_perm {l₁ l₂ : List ℚ} (h : l₁ ~ l₂) : sortAsc l₁ = sortAsc l₂ :=
  List.eq_of_perm_of_sorted ((sortAsc_perm l₁).trans (h.trans (sortAsc_perm l₂).symm))
    (sortAsc_sorted l₁) (sortAsc_sorted l₂)

theorem sortAsc_eq_self {l : List ℚ} (h : l.Sorted (· ≤ ·)) : sortAsc l = l :=
  List.eq_of_perm_of_sorted (sortAsc_perm l) (sortAsc_sorted l) h

theorem sortDesc_perm (l : List ℚ) : sortDesc l ~ l := List.perm_insertionSort _ _

theorem sortDesc_sorted (l : List ℚ) : (sortDesc l).Sorted (· ≥ ·) :=
  List.sorted_insertionSort _ _

theorem computeIntervals_eq_filterMap (l : List ℚ) :
    computeIntervals l = (l.zip l.tail).filterMap
      (fun p => if p.2 - p.1 > 0 then some (1 / (p.2 - p.1)) else none) := by
  induction l with
  | nil => rfl
  | cons a l ih =>
    cases l with
    | nil => rfl
    | cons b rest =>
      by_cases h : b - a > 0
      · have h2 : a < b := by linarith
        simp [computeIntervals, ih, h, h2]
      · have h2 : ¬ a < b := by intro hc; exact h (by linarith)
        simp [computeIntervals, ih, h, h2]

theorem computeRates_eq_spec (ts : List ℚ) : computeRates ts = computeRatesSpec ts := by
  simp only [computeRatesSpec]
  rw [computeRates, computeIntervals_eq_filterMap]

theorem computeIntervals_chain_length {l : List ℚ} (h : l.Chain' (· < ·)) :
    (computeIntervals l).length = l.length - 1 := by
  induction l with
  | nil => rfl
  | cons a l ih =>
    cases l with
    | nil => rfl
    | cons b rest =>
      rw [List.chain'_cons] at h
      have hab : b - a > 0 := by linarith [h.1]
      simp only [computeIntervals, if_pos hab, List.singleton_append, List.length_cons,
        ih h.2]
      omega

theorem computeIntervals_chain_getD {l : List ℚ} (h : l.Chain' (· < ·)) :
    ∀ i : ℕ, i + 1 < l.length →
      (computeIntervals l).getD i 0 = 1 / (l.getD (i + 1) 0 - l.getD i 0) := by
  induction l with
  | nil => intro i hi; simp at hi
  | cons a l ih =>
    cases l with
    | nil => intro i hi; simp at hi
    | cons b rest =>
      rw [List.chain'_cons] at h
      have hab : b - a > 0 := by linarith [h.1]
      intro i hi
      match i with
      | 0 =>
        have h2 : a < b := h.1
        simp [computeIntervals, if_pos hab, h2]
      | Nat.succ n =>
        have hn : n + 1 < (b :: rest).length := by simpa using hi
        simp only [computeIntervals, if_pos hab, List.singleton_append, List.getD_cons_succ]
        exact ih h.2 n hn

/-- Claim C1: `computeRates` agrees with the spec's reference definition on every
input; on a strictly increasing input of length at least 2 it returns exactly
N-1 rates, the i-th being the reciprocal of the i-th consecutive delta. -/
theorem computeRates_correct (ts : List ℚ) :
    computeRates ts = computeRatesSpec ts ∧
    (ts.Chain' (· < ·) → 2 ≤ ts.length →
      (computeRates ts).length = ts.length - 1 ∧
      ∀ i : ℕ, i + 1 < ts.length →
        (computeRates ts).getD i 0 = 1 / (ts.getD (i + 1) 0 - ts.getD i 0)) := by
  refine ⟨computeRates_eq_spec ts, fun hch _ => ?_⟩
  have hsorted : ts.Sorted (· ≤ ·) := (List.chain'_iff_pairwise.mp hch).imp le_of_lt
  have hs : sortAsc ts = ts := sortAsc_eq_self hsorted
  rw [computeRates, hs]
  exact ⟨computeIntervals_chain_length hch, computeIntervals_chain_getD hch⟩

/-- Witness for C1 at the strictly increasing input `[0, 1, 3]`. -/
theorem computeRates_correct_witness :
    List.Chain' (· < ·) [(0:ℚ), 1, 3] ∧ 2 ≤ ([(0:ℚ), 1, 3]).length ∧
      (computeRates [(0:ℚ), 1, 3]).length = ([(0:ℚ), 1, 3]).length - 1 :=
  ⟨by norm_num [List.chain'_cons], by norm_num,
    ((computeRates_correct [(0:ℚ), 1, 3]).2 (by norm_num [List.chain'_cons]) (by norm_num)).1⟩

theorem foldl_add_eq : ∀ (l : List ℚ) (a : ℚ), l.foldl (· + ·) a = a + l.sum
  | [], a => by simp
  | x :: xs, a => by
    rw [List.foldl_cons, foldl_add_eq xs (a + x), List.sum_cons]
    ring

theorem foldl_add_map (g : ℚ → ℚ) : ∀ (l : List ℚ) (a : ℚ),
    l.foldl (fun acc x => acc + g x) a = a + (l.map g).sum
  | [], a => by simp
  | x :: xs, a => by
    rw [List.foldl_cons, foldl_add_map g xs (a + g x), List.map_cons, List.sum_cons]
    ring

theorem listSum_eq_sum (l : List ℚ) : listSum l = l.sum := by
  rw [listSum, foldl_add_eq, zero_add]

theorem sqDevSum_eq (m : ℚ) (l : List ℚ) :
    sqDevSum m l = (l.map fun x => (x - m) ^ 2).sum := by
  rw [sqDevSum, foldl_add_map (fun x => (x - m) ^ 2) l 0, zero_add]

theorem meanOf_eq (l : List ℚ) : meanOf l = l.sum / l.length := by
  rw [meanOf, listSum_eq_sum]

theorem varOf_eq (l : List ℚ) :
    varOf l = (l.map fun x => (x - l.sum / l.length) ^ 2).sum / l.length := by
  rw [varOf, sqDevSum_eq, meanOf_eq]

theorem varOf_nonneg (l : List ℚ) : 0 ≤ varOf l := by
  rw [varOf, sqDevSum_eq]
  apply div_nonneg _ (by positivity)
  apply List.sum_nonneg
  intro x hx
  rw [List.mem_map] at hx
  obtain ⟨y, _, rfl⟩ := hx
  positivity

theorem withinThreshold_iff (mean variance threshold freq : ℚ) (hv : 0 ≤ variance) :
    withinThreshold mean variance threshold freq = true ↔
      |(freq : ℝ) - (mean : ℝ)| ≤ (threshold : ℝ) * Real.sqrt (variance : ℝ) := by
  have hvR : (0:ℝ) ≤ (variance : ℝ) := by exact_mod_cast hv
  rw [withinThreshold]
  by_cases ht : 0 ≤ threshold
  · rw [if_pos ht, decide_eq_true_iff]
    have htR : (0:ℝ) ≤ (threshold : ℝ) := by exact_mod_cast ht
    constructor
    · intro h
      have hR : ((freq:ℝ) - (mean:ℝ)) ^ 2 ≤ (threshold:ℝ) ^ 2 * (variance:ℝ) := by
        exact_mod_cast h
      calc |(freq:ℝ) - (mean:ℝ)|
          = Real.sqrt (((freq:ℝ) - (mean:ℝ)) ^ 2) := (Real.sqrt_sq_eq_abs _).symm
        _ ≤ Real.sqrt ((threshold:ℝ) ^ 2 * (variance:ℝ)) := Real.sqrt_le_sqrt hR
        _ = (threshold:ℝ) * Real.sqrt (variance:ℝ) := by
            rw [Real.sqrt_mul (sq_nonneg _), Real.sqrt_sq htR]
    · intro h
      have h2 : |(freq:ℝ) - (mean:ℝ)| ^ 2 ≤ ((threshold:ℝ) * Real.sqrt (variance:ℝ)) ^ 2 :=
        pow_le_pow_left₀ (abs_nonneg _) h 2
      rw [sq_abs, mul_pow, Real.sq_sqrt hvR] at h2
      exact_mod_cast h2
  · rw [if_neg ht, decide_eq_true_iff]
    push_neg at ht
    constructor
    · rintro ⟨hfm, hv0⟩
      subst hfm
      have hz : (variance : ℝ) = 0 := by exact_mod_cast hv0
      simp [hz]
    · intro h
      have hsq : Real.sqrt (variance:ℝ) = 0 := by
        by_contra hne
        have hpos : 0 < Real.sqrt (variance:ℝ) :=
          lt_of_le_of_ne (Real.sqrt_nonneg _) (Ne.symm hne)
        have htR : (threshold : ℝ) < 0 := by exact_mod_cast ht
        nlinarith [abs_nonneg ((freq:ℝ) - (mean:ℝ))]
      have hv0 : (variance:ℝ) = 0 := (Real.sqrt_eq_zero hvR).mp hsq
      have hd : |(freq:ℝ) - (mean:ℝ)| ≤ 0 := by
        calc |(freq:ℝ) - (mean:ℝ)| ≤ (threshold:ℝ) * Real.sqrt (variance:ℝ) := h
          _ = 0 := by rw [hsq, mul_zero]
      have hfm : (freq:ℝ) = (mean:ℝ) := by
        have := abs_nonpos_iff.mp hd
        linarith
      exact ⟨by exact_mod_cast hfm, by exact_mod_cast hv0⟩

/-- Claim C2: for at least 3 rates, `removeOutliers` keeps exactly the rates whose
absolute deviation from the population mean of the full input is at most
`threshold` times the population standard deviation of the full input (mean
and variance both divide by N); the reported outlier count, input length
minus filtered length, is an exact (non-truncating) subtraction. -/
theorem removeOutliers_correct (rates : List ℚ) (threshold : ℚ)
    (h3 : 3 ≤ rates.length) :
    removeOutliers rates threshold =
      rates.filter (withinThreshold (meanOf rates) (varOf rates) threshold) ∧
    (∀ x : ℚ, withinThreshold (meanOf rates) (varOf rates) threshold x = true ↔
      |(x : ℝ) - (meanOf rates : ℝ)| ≤
        (threshold : ℝ) * Real.sqrt (varOf rates : ℝ)) ∧
    meanOf rates = rates.sum / rates.length ∧
    varOf rates = (rates.map fun x => (x - rates.sum / rates.length) ^ 2).sum / rates.length ∧
    ((rates.length - (removeOutliers rates threshold).length : ℕ) : ℤ) =
      (rates.length : ℤ) - ((removeOutliers rates threshold).length : ℤ) := by
  have hnotlt : ¬ rates.length < 3 := by omega
  have hfilter : removeOutliers rates threshold =
      rates.filter (withinThreshold (meanOf rates) (varOf rates) threshold) := by
    rw [removeOutliers, if_neg hnotlt]
  refine ⟨hfilter, fun x => withinThreshold_iff _ _ _ x (varOf_nonneg rates),
    meanOf_eq rates, varOf_eq rates, ?_⟩
  have hle : (removeOutliers rates threshold).length ≤ rates.length := by
    rw [hfilter]; exact List.length_filter_le _ _
  omega

/-- Witness for C2 at the rate list `[1, 2, 3]` with threshold 2. -/
theorem removeOutliers_correct_witness :
    3 ≤ ([(1:ℚ), 2, 3]).length ∧
      removeOutliers [(1:ℚ), 2, 3] 2 =
        ([(1:ℚ), 2, 3]).filter
          (withinThreshold (meanOf [(1:ℚ), 2, 3]) (varOf [(1:ℚ), 2, 3]) 2) :=
  ⟨by norm_num, (removeOutliers_correct [(1:ℚ), 2, 3] 2 (by norm_num)).1⟩

/-- Claim C3 counterexample: for the rates `[1, 1, 1, 1, 100]` and threshold 2 the
filter keeps 100 (its deviation 79.2 equals 2 times the population standard
deviation 39.6 exactly, and the test uses `<=`), so the result is the whole
list, not `[1, 1, 1, 1]`, and the outlier count is 0, not 1. -/
theorem removeOutliers_boundary_counterexample :
    removeOutliers [1, 1, 1, 1, 100] 2 = [1, 1, 1, 1, 100] ∧
      removeOutliers [1, 1, 1, 1, 100] 2 ≠ [1, 1, 1, 1] ∧
      ([1, 1, 1, 1, 100] : List ℚ).length - (removeOutliers [1, 1, 1, 1, 100] 2).length = 0 := by
  have h : removeOutliers [1, 1, 1, 1, 100] 2 = [1, 1, 1, 1, 100] := by
    with_unfolding_all decide
  refine ⟨h, ?_, by rw [h]; simp⟩
  rw [h]
  intro hc
  exact absurd (congrArg List.length hc) (by norm_num)

/-- Claim C3 amended: on `[1, 1, 1, 1, 100]` with threshold 2 the deviation of 100
from the mean 104/5 = 20.8 is exactly twice the population standard deviation
(the variance is (198/5)² = 39.6²), so 100 is retained: the filtered result
is `[1, 1, 1, 1, 100]` and the outlier count is 0. -/
theorem removeOutliers_boundary_amended :
    removeOutliers [1, 1, 1, 1, 100] 2 = [1, 1, 1, 1, 100] ∧
      meanOf [1, 1, 1, 1, 100] = 104 / 5 ∧
      varOf [1, 1, 1, 1, 100] = (198 / 5) ^ 2 ∧
      (100 - meanOf [1, 1, 1, 1, 100]) ^ 2 = 2 ^ 2 * varOf [1, 1, 1, 1, 100] := by
  refine ⟨by with_unfolding_all decide, ?_, ?_, ?_⟩ <;>
    norm_num [meanOf, varOf, listSum, sqDevSum]

/-- Claim C6: with fewer than 3 rates, `removeOutliers` returns its input
unchanged, so the outlier count is zero. -/
theorem removeOutliers_small (rates : List ℚ) (threshold : ℚ)
    (h : rates.length < 3) :
    removeOutliers rates threshold = rates ∧
      rates.length - (removeOutliers rates threshold).length = 0 := by
  have he : removeOutliers rates threshold = rates := by rw [removeOutliers, if_pos h]
  exact ⟨he, by rw [he]; omega⟩

/-- Witness for C6 at the two-element rate list `[5, 7]`. -/
theorem removeOutliers_small_witness :
    ([(5:ℚ), 7]).length < 3 ∧ removeOutliers [(5:ℚ), 7] 3 = [(5:ℚ), 7] :=
  ⟨by norm_num, (removeOutliers_small [(5:ℚ), 7] 3 (by norm_num)).1⟩

/-- Claim C9: the filtered list is an order-preserving subsequence of the raw
input: a `Sublist`, whence every retained element occurs in the input. -/
theorem removeOutliers_sublist (rates : List ℚ) (threshold : ℚ) :
    (removeOutliers rates threshold).Sublist rates ∧
      ∀ x ∈ removeOutliers rates threshold, x ∈ rates := by
  have hsub : (removeOutliers rates threshold).Sublist rates := by
    rw [removeOutliers]
    split
    · exact List.Sublist.refl _
    · exact List.filter_sublist _
  exact ⟨hsub, fun x hx => hsub.subset hx⟩

/-- Witness for C9 at the rate list `[1, 2, 3]`: the filter result is a
sublist, and its member 1 occurs in the input. -/
theorem removeOutliers_sublist_witness :
    ((1:ℚ) ∈ removeOutliers [(1:ℚ), 2, 3] 2) ∧
      (removeOutliers [(1:ℚ), 2, 3] 2).Sublist [(1:ℚ), 2, 3] ∧
      (1:ℚ) ∈ [(1:ℚ), 2, 3] :=
  ⟨by with_unfolding_all decide, (removeOutliers_sublist [(1:ℚ), 2, 3] 2).1,
    (removeOutliers_sublist [(1:ℚ), 2, 3] 2).2 1 (by with_unfolding_all decide)⟩

theorem foldl_min_mem : ∀ (xs : List ℚ) (a : ℚ), xs.foldl min a ∈ a :: xs
  | [], a => List.mem_cons_self a []
  | x :: xs, a => by
    rw [List.foldl_cons]
    have h := foldl_min_mem xs (min a x)
    rw [List.mem_cons] at h
    rcases h with h | h
    · rcases min_choice a x with hm | hm
      · rw [h, hm]; exact List.mem_cons_self _ _
      · rw [h, hm]; exact List.mem_cons_of_mem _ (List.mem_cons_self _ _)
    · exact List.mem_cons_of_mem _ (List.mem_cons_of_mem _ h)

theorem foldl_min_le (xs : List ℚ) : ∀ a y : ℚ, y ∈ a :: xs → xs.foldl min a ≤ y := by
  induction xs with
  | nil =>
    intro a y hy
    simp only [List.mem_cons, List.not_mem_nil, or_false] at hy
    subst hy
    simp
  | cons x xs ih =>
    intro a y hy
    rw [List.foldl_cons]
    have hinit : xs.foldl min (min a x) ≤ min a x :=
      ih (min a x) (min a x) (List.mem_cons_self _ _)
    rw [List.mem_cons] at hy
    rcases hy with hy | hy
    · subst hy
      exact le_trans hinit (min_le_left _ _)
    · rw [List.mem_cons] at hy
      rcases hy with hy | hy
      · subst hy
        exact le_trans hinit (min_le_right _ _)
      · exact ih (min a x) y (List.mem_cons_of_mem _ hy)

theorem foldl_max_mem : ∀ (xs : List ℚ) (a : ℚ), xs.foldl max a ∈ a :: xs
  | [], a => List.mem_cons_self a []
  | x :: xs, a => by
    rw [List.foldl_cons]
    have h := foldl_max_mem xs (max a x)
    rw [List.mem_cons] at h
    rcases h with h | h
    · rcases max_choice a x with hm | hm
      · rw [h, hm]; exact List.mem_cons_self _ _
      · rw [h, hm]; exact List.mem_cons_of_mem _ (List.mem_cons_self _ _)
    · exact List.mem_cons_of_mem _ (List.mem_cons_of_mem _ h)

theorem le_foldl_max (xs : List ℚ) : ∀ a y : ℚ, y ∈ a :: xs → y ≤ xs.foldl max a := by
  induction xs with
  | nil =>
    intro a y hy
    simp only [List.mem_cons, List.not_mem_nil, or_false] at hy
    subst hy
    simp
  | cons x xs ih =>
    intro a y hy
    rw [List.foldl_cons]
    have hinit : max a x ≤ xs.foldl max (max a x) :=
      ih (max a x) (max a x) (List.mem_cons_self _ _)
    rw [List.mem_cons] at hy
    rcases hy with hy | hy
    · subst hy
      exact le_trans (le_max_left _ _) hinit
    · rw [List.mem_cons] at hy
      rcases hy with hy | hy
      · subst hy
        exact le_trans (le_max_right _ _) hinit
      · exact ih (max a x) y (List.mem_cons_of_mem _ hy)

theorem listMin_mem {l : List ℚ} (h : l ≠ []) : listMin l ∈ l := by
  match l with
  | [] => exact absurd rfl h
  | x :: xs => exact foldl_min_mem xs x

theorem listMin_le (l : List ℚ) : ∀ x ∈ l, listMin l ≤ x := by
  match l with
  | [] => intro x hx; simp at hx
  | a :: xs => intro x hx; exact foldl_min_le xs a x hx

theorem listMax_mem {l : List ℚ} (h : l ≠ []) : listMax l ∈ l := by
  match l with
  | [] => exact absurd rfl h
  | x :: xs => exact foldl_max_mem xs x

theorem le_listMax (l : List ℚ) : ∀ x ∈ l, x ≤ listMax l := by
  match l with
  | [] => intro x hx; simp at hx
  | a :: xs => intro x hx; exact le_foldl_max xs a x hx

theorem calculateFrequencyStats_cases (ts : List ℚ) (threshold : ℚ) :
    (calculateFrequencyStats ts threshold = zeroStats ts.length [] 0) ∨
    (calculateFrequencyStats ts threshold =
        zeroStats ts.length (computeRates ts)
          ((computeRates ts).length -
            (removeOutliers (computeRates ts) threshold).length) ∧
      removeOutliers (computeRates ts) threshold = []) ∨
    (calculateFrequencyStats ts threshold =
        summarize ts.length (computeRates ts)
          (removeOutliers (computeRates ts) threshold)
          ((computeRates ts).length -
            (removeOutliers (computeRates ts) threshold).length) ∧
      removeOutliers (computeRates ts) threshold ≠ []) := by
  simp only [calculateFrequencyStats]
  split_ifs with h1 h2 h3
  · exact Or.inl rfl
  · exact Or.inl rfl
  · exact Or.inr (Or.inl ⟨rfl, List.length_eq_zero.mp h3⟩)
  · refine Or.inr (Or.inr ⟨rfl, fun hc => h3 ?_⟩)
    rw [hc]
    rfl

/-- Claim C4: when the filtered rate list is nonempty, the summary holds its
arithmetic mean (sum over count), the standard even/odd median over the
filtered rates sorted ascending (`sortAsc` is sorted and a permutation),
the population variance (whose square root is the source's stdDeviation),
and the min/max of the filtered rates. -/
theorem calculateFrequencyStats_summarize (ts : List ℚ) (threshold : ℚ)
    (h : (calculateFrequencyStats ts threshold).filteredFrequencies ≠ []) :
    (calculateFrequencyStats ts threshold).averageFrequency =
      (calculateFrequencyStats ts threshold).filteredFrequencies.sum /
        (calculateFrequencyStats ts threshold).filteredFrequencies.length ∧
    (calculateFrequencyStats ts threshold).medianFrequency =
      medianOf (calculateFrequencyStats ts threshold).filteredFrequencies ∧
    (sortAsc (calculateFrequencyStats ts threshold).filteredFrequencies).Sorted (· ≤ ·) ∧
    sortAsc (calculateFrequencyStats ts threshold).filteredFrequencies ~
      (calculateFrequencyStats ts threshold).filteredFrequencies ∧
    (calculateFrequencyStats ts threshold).stdDeviationSq =
      ((calculateFrequencyStats ts threshold).filteredFrequencies.map fun x =>
        (x - (calculateFrequencyStats ts threshold).filteredFrequencies.sum /
          (calculateFrequencyStats ts threshold).filteredFrequencies.length) ^ 2).sum /
        (calculateFrequencyStats ts threshold).filteredFrequencies.length ∧
    (calculateFrequencyStats ts threshold).minFrequency ∈
      (calculateFrequencyStats ts threshold).filteredFrequencies ∧
    (∀ x ∈ (calculateFrequencyStats ts threshold).filteredFrequencies,
      (calculateFrequencyStats ts threshold).minFrequency ≤ x) ∧
    (calculateFrequencyStats ts threshold).maxFrequency ∈
      (calculateFrequencyStats ts threshold).filteredFrequencies ∧
    (∀ x ∈ (calculateFrequencyStats ts threshold).filteredFrequencies,
      x ≤ (calculateFrequencyStats ts threshold).maxFrequency) := by
  rcases calculateFrequencyStats_cases ts threshold with he | ⟨he, _⟩ | ⟨he, hne⟩
  · rw [he] at h
    exact absurd rfl h
  · rw [he] at h
    exact absurd rfl h
  · rw [he] at h ⊢
    exact ⟨meanOf_eq _, rfl, sortAsc_sorted _, sortAsc_perm _, varOf_eq _,
      listMin_mem h, listMin_le _, listMax_mem h, le_listMax _⟩

/-- Witness for C4 at the timestamps `[0, 1/2, 3/4, 11/12]`, whose rates are
`[2, 4, 6]` and survive filtering: mean 4, median 4, min 2, max 6. -/
theorem calculateFrequencyStats_summarize_witness :
    (calculateFrequencyStats [0, 1/2, 3/4, 11/12] 2).filteredFrequencies ≠ [] ∧
    (calculateFrequencyStats [0, 1/2, 3/4, 11/12] 2).filteredFrequencies = [2, 4, 6] ∧
    (calculateFrequencyStats [0, 1/2, 3/4, 11/12] 2).averageFrequency =
      (calculateFrequencyStats [0, 1/2, 3/4, 11/12] 2).filteredFrequencies.sum /
        (calculateFrequencyStats [0, 1/2, 3/4, 11/12] 2).filteredFrequencies.length ∧
    (calculateFrequencyStats [0, 1/2, 3/4, 11/12] 2).averageFrequency = 4 ∧
    (calculateFrequencyStats [0, 1/2, 3/4, 11/12] 2).medianFrequency = 4 ∧
    (calculateFrequencyStats [0, 1/2, 3/4, 11/12] 2).minFrequency = 2 ∧
    (calculateFrequencyStats [0, 1/2, 3/4, 11/12] 2).maxFrequency = 6 :=
  ⟨by with_unfolding_all decide, by with_unfolding_all decide,
    (calculateFrequencyStats_summarize [0, 1/2, 3/4, 11/12] 2
      (by with_unfolding_all decide)).1,
    by with_unfolding_all decide, by with_unfolding_all decide,
    by with_unfolding_all decide, by with_unfolding_all decide⟩

/-- Claim C5: whenever the filtered rate list is empty the summary's mean, median,
variance (hence stdDeviation = √0 = 0), min and max are all exactly zero;
fewer than 2 timestamps, and no positive delta (empty rate list), both force
the filtered list empty.  The model is a total function, mirroring the
source's explicit fallback returns on every numeric edge case. -/
theorem calculateFrequencyStats_zero_fallback (ts : List ℚ) (threshold : ℚ) :
    ((calculateFrequencyStats ts threshold).filteredFrequencies = [] →
      (calculateFrequencyStats ts threshold).averageFrequency = 0 ∧
      (calculateFrequencyStats ts threshold).medianFrequency = 0 ∧
      (calculateFrequencyStats ts threshold).stdDeviationSq = 0 ∧
      Real.sqrt ((calculateFrequencyStats ts threshold).stdDeviationSq : ℝ) = 0 ∧
      (calculateFrequencyStats ts threshold).minFrequency = 0 ∧
      (calculateFrequencyStats ts threshold).maxFrequency = 0) ∧
    (ts.length < 2 → (calculateFrequencyStats ts threshold).filteredFrequencies = []) ∧
    (computeRates ts = [] →
      (calculateFrequencyStats ts threshold).filteredFrequencies = []) := by
  refine ⟨?_, ?_, ?_⟩
  · intro h
    rcases calculateFrequencyStats_cases ts threshold with he | ⟨he, _⟩ | ⟨he, hne⟩
    · rw [he]
      norm_num [zeroStats]
    · rw [he]
      norm_num [zeroStats]
    · rw [he] at h
      exact absurd h hne
  · intro h
    unfold calculateFrequencyStats
    rw [if_pos h]
    rfl
  · intro h
    unfold calculateFrequencyStats
    by_cases hlen : ts.length < 2
    · rw [if_pos hlen]
      rfl
    · rw [if_neg hlen]
      simp only [h]
      rfl

/-- Witness for C5 at the duplicate timestamps `[1, 1]`: the delta is zero,
so no rate is emitted and the summary is all zeros. -/
theorem calculateFrequencyStats_zero_fallback_witness :
    computeRates [(1:ℚ), 1] = [] ∧
    (calculateFrequencyStats [(1:ℚ), 1] 2).filteredFrequencies = [] ∧
    (calculateFrequencyStats [(1:ℚ), 1] 2).averageFrequency = 0 ∧
    (calculateFrequencyStats [(1:ℚ), 1] 2).maxFrequency = 0 :=
  ⟨by with_unfolding_all decide,
    (calculateFrequencyStats_zero_fallback [(1:ℚ), 1] 2).2.2 (by with_unfolding_all decide),
    ((calculateFrequencyStats_zero_fallback [(1:ℚ), 1] 2).1
      ((calculateFrequencyStats_zero_fallback [(1:ℚ), 1] 2).2.2
        (by with_unfolding_all decide))).1,
    ((calculateFrequencyStats_zero_fallback [(1:ℚ), 1] 2).1
      ((calculateFrequencyStats_zero_fallback [(1:ℚ), 1] 2).2.2
        (by with_unfolding_all decide))).2.2.2.2.2⟩

/-- Claim C10: the whole statistics record — in particular mean, median, standard
deviation, min, max and outlier count — is invariant under permutation of
the input timestamp collection. -/
theorem calculateFrequencyStats_perm (ts₁ ts₂ : List ℚ) (threshold : ℚ)
    (h : ts₁ ~ ts₂) :
    calculateFrequencyStats ts₁ threshold = calculateFrequencyStats ts₂ threshold := by
  have hl : ts₁.length = ts₂.length := h.length_eq
  have hr : computeRates ts₁ = computeRates ts₂ := by
    rw [computeRates, computeRates, sortAsc_eq_of_perm h]
  unfold calculateFrequencyStats
  rw [hl, hr]

/-- Witness for C10 at the permuted pair `[1, 2]` and `[2, 1]`. -/
theorem calculateFrequencyStats_perm_witness :
    ([(1:ℚ), 2] ~ [(2:ℚ), 1]) ∧
      calculateFrequencyStats [(1:ℚ), 2] 2 = calculateFrequencyStats [(2:ℚ), 1] 2 :=
  ⟨List.Perm.swap 2 1 [], calculateFrequencyStats_perm _ _ 2 (List.Perm.swap 2 1 [])⟩

/-- Claim C7: inserting a new 1001st timestamp into a 1000-element set truncates
the set to the 1000 largest values, in descending order, and removes the
topic's cache entry; moreover a retain step on a set within the cap never
leaves more than 1000 timestamps. -/
theorem retain_cap (s : ChannelState) (t : ℚ)
    (hlen : s.timestamps.length = MAX_TIMESTAMPS_PER_TOPIC)
    (hnew : t ∉ s.timestamps) :
    (retain MAX_TIMESTAMPS_PER_TOPIC s t).1.timestamps.length = MAX_TIMESTAMPS_PER_TOPIC ∧
    (retain MAX_TIMESTAMPS_PER_TOPIC s t).1.cache = none ∧
    (retain MAX_TIMESTAMPS_PER_TOPIC s t).1.timestamps.Sorted (· ≥ ·) ∧
    (∃ dropped : ℚ,
      s.timestamps ++ [t] ~ (retain MAX_TIMESTAMPS_PER_TOPIC s t).1.timestamps ++ [dropped] ∧
      ∀ y ∈ (retain MAX_TIMESTAMPS_PER_TOPIC s t).1.timestamps, dropped ≤ y) ∧
    (∀ (s2 : ChannelState) (u : ℚ), s2.timestamps.length ≤ MAX_TIMESTAMPS_PER_TOPIC →
      (retain MAX_TIMESTAMPS_PER_TOPIC s2 u).1.timestamps.length ≤
        MAX_TIMESTAMPS_PER_TOPIC) := by
  have hins : (s.timestamps ++ [t]).length = MAX_TIMESTAMPS_PER_TOPIC + 1 := by
    rw [List.length_append, hlen]
    rfl
  have hgt : (s.timestamps ++ [t]).length > MAX_TIMESTAMPS_PER_TOPIC := by
    rw [hins]
    omega
  have he : retain MAX_TIMESTAMPS_PER_TOPIC s t =
      (⟨(sortDesc (s.timestamps ++ [t])).take MAX_TIMESTAMPS_PER_TOPIC, none⟩, true) := by
    unfold retain
    rw [if_neg hnew, if_pos hgt]
  rw [he]
  have hslen : (sortDesc (s.timestamps ++ [t])).length = MAX_TIMESTAMPS_PER_TOPIC + 1 := by
    rw [(sortDesc_perm _).length_eq, hins]
  have hsorted := sortDesc_sorted (s.timestamps ++ [t])
  have hsplit :=
    List.take_append_drop MAX_TIMESTAMPS_PER_TOPIC (sortDesc (s.timestamps ++ [t]))
  have hdlen :
      ((sortDesc (s.timestamps ++ [t])).drop MAX_TIMESTAMPS_PER_TOPIC).length = 1 := by
    rw [List.length_drop, hslen]
    omega
  obtain ⟨d, hd⟩ := List.length_eq_one.mp hdlen
  have heq : sortDesc (s.timestamps ++ [t]) =
      (sortDesc (s.timestamps ++ [t])).take MAX_TIMESTAMPS_PER_TOPIC ++ [d] := by
    rw [← hd]
    exact hsplit.symm
  refine ⟨?_, rfl, ?_, ⟨d, ?_, ?_⟩, ?_⟩
  · rw [List.length_take, hslen]
    exact min_eq_left (by omega)
  · exact List.Pairwise.sublist (List.take_sublist _ _) hsorted
  · rw [← heq]
    exact (sortDesc_perm _).symm
  · intro y hy
    have hsorted2 :
        ((sortDesc (s.timestamps ++ [t])).take MAX_TIMESTAMPS_PER_TOPIC ++ [d]).Pairwise
          (· ≥ ·) := by
      rw [← heq]
      exact hsorted
    exact (List.pairwise_append.mp hsorted2).2.2 y hy d (List.mem_singleton_self d)
  · intro s2 u hle
    simp only [retain]
    split_ifs with hmem hbig
    · exact hle
    · exact List.length_take_le _ _
    · rw [List.length_append]
      rw [List.length_append] at hbig
      omega

set_option maxRecDepth 4000 in
/-- Witness for C7: a channel holding the 1000 distinct timestamps
`0, 1, …, 999` receives the new timestamp 1000; the cache entry is gone. -/
theorem retain_cap_witness :
    (List.map (fun n : ℕ => (n : ℚ)) (List.range 1000)).length = MAX_TIMESTAMPS_PER_TOPIC ∧
    ((1000 : ℚ) ∉ List.map (fun n : ℕ => (n : ℚ)) (List.range 1000)) ∧
    (retain MAX_TIMESTAMPS_PER_TOPIC
      ⟨List.map (fun n : ℕ => (n : ℚ)) (List.range 1000), none⟩ 1000).1.cache = none := by
  have hlen : (List.map (fun n : ℕ => (n : ℚ)) (List.range 1000)).length = MAX_TIMESTAMPS_PER_TOPIC := by
    rw [List.length_map, List.length_range]
    rfl
  have hnew : (1000 : ℚ) ∉ List.map (fun n : ℕ => (n : ℚ)) (List.range 1000) := by
    intro hmem
    rw [List.mem_map] at hmem
    obtain ⟨a, ha, hc⟩ := hmem
    rw [List.mem_range] at ha
    have : a = 1000 := by exact_mod_cast hc
    omega
  exact ⟨hlen, hnew,
    (retain_cap ⟨List.map (fun n : ℕ => (n : ℚ)) (List.range 1000), none⟩ 1000 hlen hnew).2.1⟩

theorem getCachedStats_hit {threshold : ℚ} {s : ChannelState} {c : CacheEntry}
    (hc : s.cache = some c) (h1 : c.lastUpdate = fingerprintLastUpdate s.timestamps)
    (h2 : c.timestampCount = s.timestamps.length) :
    getCachedStats threshold s = (c.stats, s) := by
  obtain ⟨ts, cache⟩ := s
  dsimp only at hc h1 h2 ⊢
  subst hc
  dsimp only [getCachedStats]
  rw [if_pos ⟨h1, h2⟩]

theorem getCachedStats_none {threshold : ℚ} {s : ChannelState} (hc : s.cache = none) :
    getCachedStats threshold s =
      (calculateFrequencyStats s.timestamps threshold,
        ⟨s.timestamps, some ⟨calculateFrequencyStats s.timestamps threshold,
          fingerprintLastUpdate s.timestamps, s.timestamps.length⟩⟩) := by
  obtain ⟨ts, cache⟩ := s
  dsimp only at hc ⊢
  subst hc
  dsimp only [getCachedStats]

theorem getCachedStats_idem_aux (threshold : ℚ) (ts : List ℚ) (stats : FrequencyStats) :
    getCachedStats threshold ⟨ts, some ⟨stats, fingerprintLastUpdate ts, ts.length⟩⟩ =
      (stats, ⟨ts, some ⟨stats, fingerprintLastUpdate ts, ts.length⟩⟩) :=
  getCachedStats_hit rfl rfl rfl

theorem getCachedStats_miss {threshold : ℚ} {s : ChannelState} {c : CacheEntry}
    (hc : s.cache = some c)
    (hm : ¬(c.lastUpdate = fingerprintLastUpdate s.timestamps ∧
            c.timestampCount = s.timestamps.length)) :
    getCachedStats threshold s =
      (calculateFrequencyStats s.timestamps threshold,
        ⟨s.timestamps, some ⟨calculateFrequencyStats s.timestamps threshold,
          fingerprintLastUpdate s.timestamps, s.timestamps.length⟩⟩) := by
  obtain ⟨ts, cache⟩ := s
  dsimp only at hc hm ⊢
  subst hc
  dsimp only [getCachedStats]
  rw [if_neg hm]

/-- Claim C8: the memoized-summary cache contract.  A stored entry whose
fingerprint (max timestamp, set cardinality) matches is returned without
recomputation, with the state unchanged; a second call with no intervening
retain returns the same summary and state; and with no entry, or a
mismatched fingerprint, the summary is recomputed by
`calculateFrequencyStats` and stored under the current fingerprint. -/
theorem getCachedStats_contract (threshold : ℚ) (s : ChannelState) :
    (∀ c : CacheEntry, s.cache = some c →
      c.lastUpdate = fingerprintLastUpdate s.timestamps →
      c.timestampCount = s.timestamps.length →
      getCachedStats threshold s = (c.stats, s)) ∧
    getCachedStats threshold (getCachedStats threshold s).2 =
      ((getCachedStats threshold s).1, (getCachedStats threshold s).2) ∧
    (s.cache = none →
      getCachedStats threshold s =
        (calculateFrequencyStats s.timestamps threshold,
          ⟨s.timestamps, some ⟨calculateFrequencyStats s.timestamps threshold,
            fingerprintLastUpdate s.timestamps, s.timestamps.length⟩⟩)) ∧
    (∀ c : CacheEntry, s.cache = some c →
      ¬(c.lastUpdate = fingerprintLastUpdate s.timestamps ∧
        c.timestampCount = s.timestamps.length) →
      getCachedStats threshold s =
        (calculateFrequencyStats s.timestamps threshold,
          ⟨s.timestamps, some ⟨calculateFrequencyStats s.timestamps threshold,
            fingerprintLastUpdate s.timestamps, s.timestamps.length⟩⟩)) := by
  refine ⟨fun c hc h1 h2 => getCachedStats_hit hc h1 h2, ?_,
    fun hc => getCachedStats_none hc, fun c hc hm => getCachedStats_miss hc hm⟩
  rcases hc : s.cache with _ | c
  · rw [getCachedStats_none hc]
    exact getCachedStats_idem_aux threshold s.timestamps _
  · by_cases hm : c.lastUpdate = fingerprintLastUpdate s.timestamps ∧
        c.timestampCount = s.timestamps.length
    · rw [getCachedStats_hit hc hm.1 hm.2]
      exact getCachedStats_hit hc hm.1 hm.2
    · rw [getCachedStats_miss hc hm]
      exact getCachedStats_idem_aux threshold s.timestamps _

/-- Witness for C8: a cached entry whose fingerprint (max 2, count 2) matches
the set `[1, 2]` is returned as stored — here a deliberately distinctive
record — without recomputation. -/
theorem getCachedStats_contract_witness :
    ((⟨[1, 2], some ⟨zeroStats 5 [] 0, 2, 2⟩⟩ : ChannelState)).cache =
        some ⟨zeroStats 5 [] 0, 2, 2⟩ ∧
      getCachedStats 3 ⟨[1, 2], some ⟨zeroStats 5 [] 0, 2, 2⟩⟩ =
        (zeroStats 5 [] 0, ⟨[1, 2], some ⟨zeroStats 5 [] 0, 2, 2⟩⟩) :=
  ⟨rfl, (getCachedStats_contract 3 _).1 ⟨zeroStats 5 [] 0, 2, 2⟩ rfl
    (by with_unfolding_all decide) rfl⟩

end TopicFrequency
